import Mathlib

/-!
Shallow embedding of the link-tree core of `src/main.py` (WIQ_PICK).

Nodes are Python dicts carrying `id`, `name`, `type`, `children`, `url`,
`date_added`; we model them as a single inductive with all fields present
(folders carry an unused `url`, links an unused `children` list, matching
the dict access patterns actually performed by the code). Session state
(`link_tree`, `selected_links`, `expanded_folders`) becomes an explicit
record; Python's in-place mutation through the alias returned by
`get_node_by_path` becomes a functional update along the same
first-match path (`modifyAt` mirrors `resolveFrom` step for step).
-/

inductive NodeType where
  | folder
  | link
deriving DecidableEq, Repr

inductive Node where
  | mk (id : String) (name : String) (ntype : NodeType) (children : List Node)
       (url : String) (date_added : String)
deriving Repr

def Node.id : Node → String
  | .mk i _ _ _ _ _ => i

def Node.name : Node → String
  | .mk _ n _ _ _ _ => n

def Node.ntype : Node → NodeType
  | .mk _ _ t _ _ _ => t

def Node.children : Node → List Node
  | .mk _ _ _ cs _ _ => cs

def Node.url : Node → String
  | .mk _ _ _ _ u _ => u

def Node.setChildren : Node → List Node → Node
  | .mk i n t _ u d, cs => .mk i n t cs u d

/-- The session's mutable state (`st.session_state` fields used by the
tree operations): the tree, the selected link ids, the expanded folder ids. -/
structure AppState where
  link_tree : Node
  selected_links : Finset String
  expanded_folders : Finset String

/-- Initial session state (`main.py` lines 13-25): a single root folder,
empty selection, root expanded. -/
def initial_state : AppState :=
  { link_tree := .mk "root" "Root" NodeType.folder [] "" ""
    selected_links := ∅
    expanded_folders := {"root"} }

/-- Inner loop of `get_node_by_path`: scan `children` for the first child
whose `id` equals the segment. -/
def findChild : List Node → String → Option Node
  | [], _ => none
  | c :: cs, nid => if c.id = nid then some c else findChild cs nid

/-- Outer loop of `get_node_by_path`: walk the remaining segments,
failing (`None`) as soon as a segment matches no child. -/
def resolveFrom : Node → List String → Option Node
  | node, [] => some node
  | node, nid :: rest =>
    match findChild node.children nid with
    | some c => resolveFrom c rest
    | none => none

/-- `get_node_by_path(path)` (`main.py` lines 31-46): returns the tree root
when `path == ['root']`, otherwise iterates over `path[1:]` — the first
element of `path` is never examined. -/
def get_node_by_path (tree : Node) (path : List String) : Option Node :=
  if path = ["root"] then some tree
  else resolveFrom tree (path.drop 1)

mutual
/-- Functional rendering of a mutation performed through the alias returned
by `get_node_by_path`: rebuild the tree with `f` applied to the node that
`resolveFrom` reaches, following the same first-match child at each step. -/
def modifyAt : Node → List String → (Node → Node) → Option Node
  | node, [], f => some (f node)
  | .mk i n t cs u d, nid :: rest, f =>
    match modifyChildren cs nid rest f with
    | some cs2 => some (.mk i n t cs2 u d)
    | none => none

def modifyChildren : List Node → String → List String → (Node → Node) → Option (List Node)
  | [], _, _, _ => none
  | c :: cs, nid, rest, f =>
    if c.id = nid then
      match modifyAt c rest f with
      | some c2 => some (c2 :: cs)
      | none => none
    else
      match modifyChildren cs nid rest f with
      | some cs2 => some (c :: cs2)
      | none => none
end

/-- Mutation at a full path, mirroring `get_node_by_path`'s two branches. -/
def modify_at_path (tree : Node) (path : List String) (f : Node → Node) : Option Node :=
  if path = ["root"] then some (f tree)
  else modifyAt tree (path.drop 1) f

/-- `add_node(parent_path, node)` (`main.py` lines 49-55): resolve the
parent; if found and a folder, append `node` to its children and report
`True`; otherwise report `False` and leave the tree untouched. -/
def add_node (tree : Node) (parent_path : List String) (node : Node) : Bool × Node :=
  match get_node_by_path tree parent_path with
  | some parent =>
    if parent.ntype = NodeType.folder then
      (true, (modify_at_path tree parent_path
        (fun p => p.setChildren (p.children ++ [node]))).getD tree)
    else (false, tree)
  | none => (false, tree)

/-- The child-list filter performed by `delete_node`. -/
def removeChild (node_id : String) (parent : Node) : Node :=
  parent.setChildren (parent.children.filter (fun c => c.id != node_id))

/-- `delete_node(node_id, parent_path)` (`main.py` lines 58-77): resolve the
parent; if found, drop every child whose id is `node_id`, discard `node_id`
from `selected_links` and from `expanded_folders` (each guarded by a
membership test in Python, which is exactly `Finset.erase`), and report
`True`; if the parent does not resolve, report `False` with no change. -/
def delete_node (s : AppState) (node_id : String) (parent_path : List String) :
    Bool × AppState :=
  match get_node_by_path s.link_tree parent_path with
  | some _ =>
    (true,
      { link_tree := (modify_at_path s.link_tree parent_path (removeChild node_id)).getD s.link_tree
        selected_links := s.selected_links.erase node_id
        expanded_folders := s.expanded_folders.erase node_id })
  | none => (false, s)

mutual
/-- `get_all_links()` (`main.py` lines 80-92): depth-first pre-order
collection of every link-type node. -/
def get_all_links : Node → List Node
  | n@(.mk _ _ t cs _ _) =>
    match t with
    | NodeType.link => [n]
    | NodeType.folder => allLinksList cs

def allLinksList : List Node → List Node
  | [] => []
  | c :: cs => get_all_links c ++ allLinksList cs
end

mutual
/-- Pre-order list of every node id in the tree (used to state freshness
and uniqueness of ids). -/
def allIds : Node → List String
  | .mk i _ _ cs _ _ => i :: allIdsList cs

def allIdsList : List Node → List String
  | [] => []
  | c :: cs => allIds c ++ allIdsList cs
end

/-- Python's `str.startswith`, modelled as a prefix test on the character
sequence. -/
def starts_with (s p : String) : Bool := p.data.isPrefixOf s.data

/-- URL normalization inside `add_link()` (`main.py` lines 153-155): keep
the string if it starts with a scheme, otherwise prepend `https://`. -/
def add_link_url (new_link : String) : String :=
  if starts_with new_link "http://" || starts_with new_link "https://" then new_link
  else "https://" ++ new_link

/-- `open_selected_links()` (`main.py` lines 204-214): when the selection
set is non-empty (Python truthiness), open each link of the tree whose id
is selected, in traversal order, and return `True`; otherwise return
`False`. The first component is the list of links actually opened. -/
def open_selected_links (s : AppState) : List Node × Bool :=
  if s.selected_links.Nonempty then
    ((get_all_links s.link_tree).filter (fun l => l.id ∈ s.selected_links), true)
  else ([], false)

/-- The tree-mutating operations reachable from the UI. -/
inductive TreeOp where
  | insert (parent_path : List String) (node : Node)
  | remove (node_id : String) (parent_path : List String)

def applyOp (s : AppState) : TreeOp → AppState
  | .insert p n => { s with link_tree := (add_node s.link_tree p n).2 }
  | .remove x p => (delete_node s x p).2

def applyOps (s : AppState) (ops : List TreeOp) : AppState := ops.foldl applyOp s

/-- Concrete link node used to instantiate theorems. -/
def wLink : Node := .mk "l" "L" NodeType.link [] "https://x" "d1"

/-- Concrete folder containing one link. -/
def wFolder : Node := .mk "f" "F" NodeType.folder [wLink] "" "d2"

/-- Concrete tree: root containing the folder `f`, which contains the link `l`. -/
def wTree : Node := .mk "root" "Root" NodeType.folder [wFolder] "" ""

/-- Concrete session state over `wTree` with the link selected and both
folders expanded. -/
def wState : AppState :=
  { link_tree := wTree, selected_links := {"l"}, expanded_folders := {"root", "f"} }

/-- State whose selection holds an id matching no node of the tree. -/
def ghostState : AppState :=
  { link_tree := .mk "root" "Root" NodeType.folder [] "" ""
    selected_links := {"ghost"}
    expanded_folders := {"root"} }

/-- A fresh link node, with an id absent from `wTree`. -/
def wNew : Node := .mk "m" "M" NodeType.link [] "https://m" "d3"

/-! ## Basic equations and accessor lemmas -/

@[simp] theorem id_mk (i n : String) (t : NodeType) (cs : List Node) (u d : String) :
    (Node.mk i n t cs u d).id = i := rfl

@[simp] theorem ntype_mk (i n : String) (t : NodeType) (cs : List Node) (u d : String) :
    (Node.mk i n t cs u d).ntype = t := rfl

@[simp] theorem children_mk (i n : String) (t : NodeType) (cs : List Node) (u d : String) :
    (Node.mk i n t cs u d).children = cs := rfl

@[simp] theorem setChildren_mk (i n : String) (t : NodeType) (cs cs2 : List Node) (u d : String) :
    (Node.mk i n t cs u d).setChildren cs2 = Node.mk i n t cs2 u d := rfl

@[simp] theorem id_setChildren (nd : Node) (cs : List Node) :
    (nd.setChildren cs).id = nd.id := by cases nd; rfl

@[simp] theorem ntype_setChildren (nd : Node) (cs : List Node) :
    (nd.setChildren cs).ntype = nd.ntype := by cases nd; rfl

@[simp] theorem children_setChildren (nd : Node) (cs : List Node) :
    (nd.setChildren cs).children = cs := by cases nd; rfl

@[simp] theorem allIds_mk (i n : String) (t : NodeType) (cs : List Node) (u d : String) :
    allIds (Node.mk i n t cs u d) = i :: allIdsList cs := rfl

@[simp] theorem allIdsList_nil : allIdsList [] = [] := rfl

@[simp] theorem allIdsList_cons (c : Node) (cs : List Node) :
    allIdsList (c :: cs) = allIds c ++ allIdsList cs := rfl

theorem allIds_def (nd : Node) : allIds nd = nd.id :: allIdsList nd.children := by
  cases nd; rfl

@[simp] theorem allLinksList_nil : allLinksList [] = [] := rfl

@[simp] theorem allLinksList_cons (c : Node) (cs : List Node) :
    allLinksList (c :: cs) = get_all_links c ++ allLinksList cs := rfl

theorem get_all_links_of_link (nd : Node) (h : nd.ntype = NodeType.link) :
    get_all_links nd = [nd] := by
  cases nd with
  | mk i n t cs u d => cases t <;> simp_all [get_all_links]

theorem get_all_links_of_folder (nd : Node) (h : nd.ntype = NodeType.folder) :
    get_all_links nd = allLinksList nd.children := by
  cases nd with
  | mk i n t cs u d => cases t <;> simp_all [get_all_links]

@[simp] theorem findChild_nil (nid : String) : findChild [] nid = none := rfl

theorem findChild_cons (c : Node) (cs : List Node) (nid : String) :
    findChild (c :: cs) nid = if c.id = nid then some c else findChild cs nid := rfl

theorem findChild_eq_some {cs : List Node} {nid : String} {c : Node}
    (h : findChild cs nid = some c) : c ∈ cs ∧ c.id = nid := by
  induction cs with
  | nil => simp at h
  | cons c0 cs0 ih =>
    rw [findChild_cons] at h
    by_cases h0 : c0.id = nid
    · simp [h0] at h
      subst h
      exact ⟨List.mem_cons_self _ _, h0⟩
    · simp [h0] at h
      obtain ⟨hm, hid⟩ := ih h
      exact ⟨List.mem_cons_of_mem _ hm, hid⟩

theorem findChild_eq_none {cs : List Node} {nid : String}
    (h : ∀ c ∈ cs, ¬ c.id = nid) : findChild cs nid = none := by
  induction cs with
  | nil => rfl
  | cons c0 cs0 ih =>
    rw [findChild_cons]
    simp [h c0 (List.mem_cons_self _ _)]
    exact ih fun c hc => h c (List.mem_cons_of_mem _ hc)

theorem findChild_append {cs ds : List Node} {nid : String}
    (h : ∀ c ∈ cs, ¬ c.id = nid) : findChild (cs ++ ds) nid = findChild ds nid := by
  induction cs with
  | nil => rfl
  | cons c0 cs0 ih =>
    rw [List.cons_append, findChild_cons]
    simp [h c0 (List.mem_cons_self _ _)]
    exact ih fun c hc => h c (List.mem_cons_of_mem _ hc)

@[simp] theorem resolveFrom_nil (nd : Node) : resolveFrom nd [] = some nd := rfl

theorem resolveFrom_cons (nd : Node) (nid : String) (rest : List String) :
    resolveFrom nd (nid :: rest)
      = (findChild nd.children nid).bind (fun c => resolveFrom c rest) := by
  cases h : findChild nd.children nid <;> simp [resolveFrom, h]

theorem resolveFrom_append (a b : List String) :
    ∀ nd : Node, resolveFrom nd (a ++ b)
      = (resolveFrom nd a).bind (fun m => resolveFrom m b) := by
  induction a with
  | nil => intro nd; simp
  | cons x xs ih =>
    intro nd
    rw [List.cons_append, resolveFrom_cons, resolveFrom_cons]
    cases h : findChild nd.children x <;> simp [ih]

theorem get_node_by_path_root_cons (t : Node) (rest : List String) :
    get_node_by_path t ("root" :: rest) = resolveFrom t rest := by
  unfold get_node_by_path
  by_cases h : ("root" :: rest : List String) = ["root"]
  · have hr : rest = [] := by simpa using h
    subst hr
    simp
  · simp [h]

/-! ## Membership of ids -/

theorem id_mem_allIds (nd : Node) : nd.id ∈ allIds nd := by
  rw [allIds_def]; exact List.mem_cons_self _ _

theorem allIds_sub_allIdsList {c : Node} {cs : List Node} (hc : c ∈ cs) :
    ∀ x ∈ allIds c, x ∈ allIdsList cs := by
  induction cs with
  | nil => simp at hc
  | cons c0 cs0 ih =>
    intro x hx
    rcases List.mem_cons.mp hc with h | h
    · subst h
      simp [hx]
    · simp [ih h x hx]

theorem childId_mem_allIdsList {c : Node} {cs : List Node} (hc : c ∈ cs) :
    c.id ∈ allIdsList cs :=
  allIds_sub_allIdsList hc c.id (id_mem_allIds c)

theorem resolveFrom_allIds_sub :
    ∀ (segs : List String) (nd m : Node), resolveFrom nd segs = some m →
      ∀ x ∈ allIds m, x ∈ allIds nd := by
  intro segs
  induction segs with
  | nil =>
    intro nd m h
    simp at h
    subst h
    exact fun x hx => hx
  | cons nid rest ih =>
    intro nd m h
    rw [resolveFrom_cons] at h
    cases hfc : findChild nd.children nid with
    | none => rw [hfc] at h; simp at h
    | some c =>
      rw [hfc] at h
      simp at h
      intro x hx
      have hcm := (findChild_eq_some hfc).1
      have : x ∈ allIds c := ih c m h x hx
      rw [allIds_def nd]
      exact List.mem_cons_of_mem _ (allIds_sub_allIdsList hcm x this)

theorem resolveFrom_id_mem {segs : List String} {nd m : Node}
    (h : resolveFrom nd segs = some m) : m.id ∈ allIds nd :=
  resolveFrom_allIds_sub segs nd m h m.id (id_mem_allIds m)

/-! ## The modify machinery: syncing `modifyAt` with `resolveFrom` -/

@[simp] theorem modifyAt_nil (nd : Node) (f : Node → Node) :
    modifyAt nd [] f = some (f nd) := by cases nd; rfl

theorem modifyAt_shape {nd : Node} {segs : List String} {f : Node → Node} {nd2 : Node}
    (h : modifyAt nd segs f = some nd2) :
    nd2 = f nd ∨ ∃ cs, nd2 = nd.setChildren cs := by
  cases segs with
  | nil => simp [modifyAt] at h; exact Or.inl h.symm
  | cons nid rest =>
    cases nd with
    | mk i n t cs u d =>
      right
      cases hmc : modifyChildren cs nid rest f with
      | none => simp [modifyAt, hmc] at h
      | some cs2 =>
        simp [modifyAt, hmc] at h
        exact ⟨cs2, by simp [← h]⟩

theorem modifyAt_id {f : Node → Node} (hf : ∀ m, (f m).id = m.id)
    {nd : Node} {segs : List String} {nd2 : Node}
    (h : modifyAt nd segs f = some nd2) : nd2.id = nd.id := by
  rcases modifyAt_shape h with h2 | ⟨cs, h2⟩
  · rw [h2, hf]
  · rw [h2, id_setChildren]

/-- List-level step of the main sync lemma, parameterized by the node-level
statement at the remaining segments. -/
theorem modifyChildren_spec {f : Node → Node} (hf : ∀ m, (f m).id = m.id)
    (rest : List String)
    (IH : ∀ c m : Node, resolveFrom c rest = some m →
      ∃ c2 pre post, modifyAt c rest f = some c2
        ∧ resolveFrom c2 rest = some (f m)
        ∧ allIds c = pre ++ allIds m ++ post
        ∧ allIds c2 = pre ++ allIds (f m) ++ post) :
    ∀ (cs : List Node) (nid : String) (c m : Node),
      findChild cs nid = some c → resolveFrom c rest = some m →
      ∃ cs2 c2 pre post, modifyChildren cs nid rest f = some cs2
        ∧ findChild cs2 nid = some c2
        ∧ resolveFrom c2 rest = some (f m)
        ∧ allIdsList cs = pre ++ allIds m ++ post
        ∧ allIdsList cs2 = pre ++ allIds (f m) ++ post := by
  intro cs
  induction cs with
  | nil => intro nid c m h; simp at h
  | cons c0 cs0 ih =>
    intro nid c m hfc hres
    rw [findChild_cons] at hfc
    by_cases h0 : c0.id = nid
    · simp [h0] at hfc
      subst hfc
      obtain ⟨c2, pre, post, hma, hres2, hids, hids2⟩ := IH c0 m hres
      refine ⟨c2 :: cs0, c2, pre, post ++ allIdsList cs0, ?_, ?_, hres2, ?_, ?_⟩
      · simp [modifyChildren, h0, hma]
      · have hid2 : c2.id = c0.id := modifyAt_id hf hma
        rw [findChild_cons]
        simp [hid2, h0]
      · simp [hids]
      · simp [hids2]
    · simp [h0] at hfc
      obtain ⟨cs2, c2, pre, post, hmc, hfc2, hres2, hids, hids2⟩ := ih nid c m hfc hres
      refine ⟨c0 :: cs2, c2, allIds c0 ++ pre, post, ?_, ?_, hres2, ?_, ?_⟩
      · simp [modifyChildren, h0, hmc]
      · rw [findChild_cons]
        simp [h0, hfc2]
      · simp [hids]
      · simp [hids2]

/-- Main sync lemma: when a path of segments resolves to `m`, modifying at
those segments succeeds, the modified tree resolves the same segments to
`f m`, and the pre-order id list of the tree changes exactly by replacing
the block of `m`'s ids with the block of `(f m)`'s ids. -/
theorem resolveFrom_modifyAt {f : Node → Node} (hf : ∀ m, (f m).id = m.id) :
    ∀ (segs : List String) (nd m : Node), resolveFrom nd segs = some m →
      ∃ nd2 pre post, modifyAt nd segs f = some nd2
        ∧ resolveFrom nd2 segs = some (f m)
        ∧ allIds nd = pre ++ allIds m ++ post
        ∧ allIds nd2 = pre ++ allIds (f m) ++ post := by
  intro segs
  induction segs with
  | nil =>
    intro nd m h
    simp at h
    subst h
    exact ⟨f nd, [], [], by simp, by simp, by simp, by simp⟩
  | cons nid rest ih =>
    intro nd m h
    rw [resolveFrom_cons] at h
    cases hfc : findChild nd.children nid with
    | none => rw [hfc] at h; simp at h
    | some c =>
      rw [hfc] at h
      simp at h
      obtain ⟨cs2, c2, pre, post, hmc, hfc2, hres2, hids, hids2⟩ :=
        modifyChildren_spec hf rest ih nd.children nid c m hfc h
      cases nd with
      | mk i n t cs u d =>
        simp only [children_mk] at hmc hfc2 hids hids2 hfc
        refine ⟨Node.mk i n t cs2 u d, i :: pre, post, ?_, ?_, ?_, ?_⟩
        · simp [modifyAt, hmc]
        · rw [resolveFrom_cons]
          simp [hfc2, hres2]
        · simp [hids]
        · simp [hids2]

/-- Fix-point lemma, list level: if the resolved target is unchanged by
`f`, modifying returns the child list unchanged. -/
theorem modifyChildren_fix {f : Node → Node} (rest : List String)
    (IH : ∀ c m : Node, resolveFrom c rest = some m → f m = m →
      modifyAt c rest f = some c) :
    ∀ (cs : List Node) (nid : String) (c m : Node),
      findChild cs nid = some c → resolveFrom c rest = some m → f m = m →
      modifyChildren cs nid rest f = some cs := by
  intro cs
  induction cs with
  | nil => intro nid c m h; simp at h
  | cons c0 cs0 ih =>
    intro nid c m hfc hres hfix
    rw [findChild_cons] at hfc
    by_cases h0 : c0.id = nid
    · simp [h0] at hfc
      subst hfc
      simp [modifyChildren, h0, IH c0 m hres hfix]
    · simp [h0] at hfc
      simp [modifyChildren, h0, ih nid c m hfc hres hfix]

/-- Fix-point lemma: modifying at a resolving path with a function that
fixes the target leaves the whole tree unchanged. -/
theorem modifyAt_fix {f : Node → Node} :
    ∀ (segs : List String) (nd m : Node),
      resolveFrom nd segs = some m → f m = m → modifyAt nd segs f = some nd := by
  intro segs
  induction segs with
  | nil =>
    intro nd m h hfix
    simp at h
    subst h
    simp [modifyAt, hfix]
  | cons nid rest ih =>
    intro nd m h hfix
    rw [resolveFrom_cons] at h
    cases hfc : findChild nd.children nid with
    | none => rw [hfc] at h; simp at h
    | some c =>
      rw [hfc] at h
      simp at h
      cases nd with
      | mk i n t cs u d =>
        simp only [children_mk] at hfc
        simp [modifyAt, modifyChildren_fix rest ih cs nid c m hfc h hfix]

/-! ## Path-level wrappers -/

/-- When `get_node_by_path` resolves `p` to `m`, the in-place mutation at
`p` succeeds, the mutated tree resolves `p` to `f m`, and the id list is
changed only inside `m`'s block. -/
theorem get_modify_spec {f : Node → Node} (hf : ∀ m, (f m).id = m.id)
    {t m : Node} {p : List String} (h : get_node_by_path t p = some m) :
    ∃ t2 pre post, modify_at_path t p f = some t2
      ∧ get_node_by_path t2 p = some (f m)
      ∧ allIds t = pre ++ allIds m ++ post
      ∧ allIds t2 = pre ++ allIds (f m) ++ post := by
  unfold get_node_by_path modify_at_path at *
  by_cases hp : p = ["root"]
  · rw [if_pos hp] at h
    have hm : m = t := by simpa using h.symm
    refine ⟨f t, [], [], ?_, ?_, ?_, ?_⟩
    · rw [if_pos hp]
    · rw [if_pos hp, hm]
    · rw [hm]; simp
    · rw [hm]; simp
  · rw [if_neg hp] at h
    obtain ⟨t2, pre, post, h1, h2, h3, h4⟩ := resolveFrom_modifyAt hf (p.drop 1) t m h
    refine ⟨t2, pre, post, ?_, ?_, h3, h4⟩
    · rw [if_neg hp]; exact h1
    · rw [if_neg hp]; exact h2

/-- Mutating at a resolving path with a function that fixes the resolved
node leaves the tree unchanged. -/
theorem modify_at_path_fix {f : Node → Node} {t m : Node} {p : List String}
    (h : get_node_by_path t p = some m) (hfix : f m = m) :
    modify_at_path t p f = some t := by
  unfold get_node_by_path modify_at_path at *
  by_cases hp : p = ["root"]
  · rw [if_pos hp] at h ⊢
    have hm : m = t := by simpa using h.symm
    subst hm
    rw [hfix]
  · rw [if_neg hp] at h ⊢
    exact modifyAt_fix (p.drop 1) t m h hfix

/-- Any successful path mutation only rewrites some node's children:
the resulting root keeps its id and its type whenever `f` preserves them. -/
theorem modify_at_path_shape {t : Node} {p : List String} {f : Node → Node} {t2 : Node}
    (h : modify_at_path t p f = some t2) :
    t2 = f t ∨ ∃ cs, t2 = t.setChildren cs := by
  unfold modify_at_path at h
  by_cases hp : p = ["root"]
  · simp [hp] at h
    exact Or.inl h.symm
  · simp [hp] at h
    exact modifyAt_shape h

/-! ## Auxiliary facts about strings and links -/

theorem isPrefixOf_append_self (p l : List Char) : p.isPrefixOf (p ++ l) = true := by
  induction p with
  | nil => simp [List.isPrefixOf]
  | cons a as ih => simp [List.isPrefixOf, ih]

/-! ## Claims -/

/-- C7: every user-supplied URL string is stored unchanged when it already
starts with `http://` or `https://`, and with `https://` prepended
otherwise; consequently every stored link URL starts with `http://` or
`https://`. -/
theorem C7_url_scheme_normalization (u : String) :
    ((starts_with u "http://" || starts_with u "https://") = true → add_link_url u = u)
    ∧ (¬ ((starts_with u "http://" || starts_with u "https://") = true) →
        add_link_url u = "https://" ++ u)
    ∧ (starts_with (add_link_url u) "http://" = true
        ∨ starts_with (add_link_url u) "https://" = true) := by
  by_cases hc : (starts_with u "http://" || starts_with u "https://") = true
  · have heq : add_link_url u = u := by simp [add_link_url, hc]
    refine ⟨fun _ => heq, fun hn => absurd hc hn, ?_⟩
    rw [heq]
    simpa using hc
  · have heq : add_link_url u = "https://" ++ u := by simp [add_link_url, hc]
    refine ⟨fun hy => absurd hy hc, fun _ => heq, Or.inr ?_⟩
    rw [heq]
    unfold starts_with
    rw [String.data_append]
    exact isPrefixOf_append_self _ _

theorem C7_url_scheme_normalization_witness :
    add_link_url "docs.com" = "https://docs.com"
    ∧ (starts_with (add_link_url "docs.com") "http://" = true
        ∨ starts_with (add_link_url "docs.com") "https://" = true) := by
  refine ⟨?_, (C7_url_scheme_normalization "docs.com").2.2⟩
  rw [(C7_url_scheme_normalization "docs.com").2.1 (by decide)]
  decide

/-- C4: inserting any node under a path that resolves to a link-type node
does not report success and returns the tree unchanged (no children list
of any node is modified, as the returned tree is the input tree itself). -/
theorem C4_insert_under_link_fails (t : Node) (p : List String) (n parent : Node)
    (hres : get_node_by_path t p = some parent)
    (hlink : parent.ntype = NodeType.link) :
    add_node t p n = (false, t) := by
  unfold add_node
  rw [hres]
  simp [hlink]

theorem C4_insert_under_link_fails_witness :
    add_node wTree ["root", "f", "l"] wNew = (false, wTree) :=
  C4_insert_under_link_fails wTree ["root", "f", "l"] wNew wLink rfl rfl

/-- C2 counterexample: the claim asserts that `resolve` fails on the empty
path and on any path whose first element is not `"root"`; but
`get_node_by_path` never examines the first element (it iterates over
`path[1:]`), so the empty path and the path `["bogus"]` both resolve to
the root node instead of failing. -/
theorem C2_counterexample :
    get_node_by_path wTree [] = some wTree
    ∧ get_node_by_path wTree ["bogus"] = some wTree := ⟨rfl, rfl⟩

/-- C2 (amended): `get_node_by_path` ignores the first path element
entirely: the empty path and every single-element path return the root
node, and a path `x :: rest` resolves exactly as walking `rest` from the
root, failing (returning no node) as soon as a segment matches no direct
child of the node reached so far. -/
theorem C2_resolve_first_segment_ignored :
    (∀ t : Node, get_node_by_path t [] = some t)
    ∧ (∀ (t : Node) (x : String), get_node_by_path t [x] = some t)
    ∧ (∀ (t : Node) (x : String) (rest : List String),
        get_node_by_path t (x :: rest) = resolveFrom t rest)
    ∧ (∀ (nd : Node) (nid : String) (rest : List String),
        (∀ c ∈ nd.children, ¬ c.id = nid) → resolveFrom nd (nid :: rest) = none) := by
  have h3 : ∀ (t : Node) (x : String) (rest : List String),
      get_node_by_path t (x :: rest) = resolveFrom t rest := by
    intro t x rest
    unfold get_node_by_path
    by_cases h : (x :: rest : List String) = ["root"]
    · obtain ⟨hx, hr⟩ : x = "root" ∧ rest = [] := by simpa using h
      subst hr
      simp [h]
    · simp [h]
  refine ⟨?_, ?_, h3, ?_⟩
  · intro t
    unfold get_node_by_path
    simp
  · intro t x
    rw [h3 t x []]
    simp
  · intro nd nid rest h
    rw [resolveFrom_cons, findChild_eq_none h]
    rfl

theorem C2_resolve_first_segment_ignored_witness :
    resolveFrom wTree ["zzz"] = none
    ∧ get_node_by_path wTree ["anything"] = some wTree :=
  ⟨C2_resolve_first_segment_ignored.2.2.2 wTree "zzz" [] (by decide),
   C2_resolve_first_segment_ignored.2.1 wTree "anything"⟩

/-- C1 counterexample: deleting the folder `f` (which contains the selected
link `l`) under the root makes `l` unreachable, yet `l`'s id is still in
the selection set afterwards — descendant link ids are not pruned, contrary
to the claim. -/
theorem C1_counterexample :
    (delete_node wState "f" ["root"]).1 = true
    ∧ get_all_links (delete_node wState "f" ["root"]).2.link_tree = []
    ∧ ("l" : String) ∈ (delete_node wState "f" ["root"]).2.selected_links := by
  refine ⟨rfl, rfl, ?_⟩
  decide

/-- C1 (amended): deleting a folder under a resolving parent path removes
exactly the folder's own id from `expanded_folders` and from the selection
set (ids of descendant link nodes are left in the selection set, as the
erasures touch only the deleted id itself). -/
theorem C1_delete_prunes_only_own_id (s : AppState) (fid : String) (p : List String)
    (h : (get_node_by_path s.link_tree p).isSome) :
    (delete_node s fid p).2.expanded_folders = s.expanded_folders.erase fid
    ∧ (delete_node s fid p).2.selected_links = s.selected_links.erase fid := by
  unfold delete_node
  cases hg : get_node_by_path s.link_tree p with
  | none => rw [hg] at h; simp at h
  | some m => exact ⟨rfl, rfl⟩

@[simp] theorem setChildren_self (nd : Node) : nd.setChildren nd.children = nd := by
  cases nd; rfl

@[simp] theorem setChildren_setChildren (nd : Node) (cs cs2 : List Node) :
    (nd.setChildren cs).setChildren cs2 = nd.setChildren cs2 := by
  cases nd; rfl

theorem removeChild_id (x : String) (m : Node) : (removeChild x m).id = m.id := by
  unfold removeChild; simp

theorem removeChild_fix {x : String} {m : Node}
    (h : ∀ c ∈ m.children, ¬ c.id = x) : removeChild x m = m := by
  unfold removeChild
  rw [List.filter_eq_self.mpr ?_]
  · simp
  · intro c hc
    simpa using h c hc

theorem removeChild_idem (x : String) (m : Node) :
    removeChild x (removeChild x m) = removeChild x m := by
  unfold removeChild
  simp [List.filter_filter]

/-- Shared helper: deleting an id that is not among the resolved parent's
children reports success, erases the id from both id sets, and leaves the
tree unchanged. -/
theorem delete_node_not_child {s : AppState} {x : String} {p : List String}
    {parent : Node} (hres : get_node_by_path s.link_tree p = some parent)
    (hnc : ∀ c ∈ parent.children, ¬ c.id = x) :
    delete_node s x p =
      (true,
        { link_tree := s.link_tree
          selected_links := s.selected_links.erase x
          expanded_folders := s.expanded_folders.erase x }) := by
  unfold delete_node
  rw [hres, modify_at_path_fix hres (removeChild_fix hnc)]
  rfl

/-- Fully evaluated form of a successful `delete_node`. -/
theorem delete_node_eq {s : AppState} {x : String} {p : List String}
    {parent t2 : Node} (hres : get_node_by_path s.link_tree p = some parent)
    (hm : modify_at_path s.link_tree p (removeChild x) = some t2) :
    delete_node s x p =
      (true,
        { link_tree := t2
          selected_links := s.selected_links.erase x
          expanded_folders := s.expanded_folders.erase x }) := by
  unfold delete_node
  rw [hres, hm]
  rfl

/-- C10: when the parent path resolves but the id to remove is not among
the parent's children, `delete_node` leaves the tree unchanged yet still
unconditionally erases the id from the selection set and from the
expanded-folders set (and reports success) — the pruning side effect does
not depend on the id actually being found under the parent. -/
theorem C10_delete_side_effects_unconditional (s : AppState) (x : String)
    (p : List String) (parent : Node)
    (hres : get_node_by_path s.link_tree p = some parent)
    (hnc : ∀ c ∈ parent.children, ¬ c.id = x) :
    delete_node s x p =
      (true,
        { link_tree := s.link_tree
          selected_links := s.selected_links.erase x
          expanded_folders := s.expanded_folders.erase x }) :=
  delete_node_not_child hres hnc

theorem C10_delete_side_effects_unconditional_witness :
    delete_node wState "ghost" ["root"] =
      (true,
        { link_tree := wState.link_tree
          selected_links := wState.selected_links.erase "ghost"
          expanded_folders := wState.expanded_folders.erase "ghost" }) :=
  C10_delete_side_effects_unconditional wState "ghost" ["root"] wTree rfl (by decide)

/-- C5: `delete_node` is idempotent — applying it twice with the same id
and parent path yields the same session state (tree included) as applying
it once; and removing an id that is not a child of the resolved parent
leaves the tree unchanged while reporting success (a no-op, not an
error). -/
theorem C5_remove_idempotent (s : AppState) (x : String) (p : List String) :
    (delete_node (delete_node s x p).2 x p).2 = (delete_node s x p).2
    ∧ (∀ parent, get_node_by_path s.link_tree p = some parent →
        (∀ c ∈ parent.children, ¬ c.id = x) →
        (delete_node s x p).2.link_tree = s.link_tree
        ∧ (delete_node s x p).1 = true) := by
  constructor
  · cases hg : get_node_by_path s.link_tree p with
    | none =>
      have h1 : delete_node s x p = (false, s) := by
        unfold delete_node
        rw [hg]
      simp [h1]
    | some parent =>
      have hf : ∀ m, (removeChild x m).id = m.id := fun m => removeChild_id x m
      obtain ⟨t2, pre, post, hm, hres2, _, _⟩ := get_modify_spec hf hg
      have h1 := delete_node_eq hg hm
      rw [h1]
      have h2 := @delete_node_eq
        { link_tree := t2
          selected_links := s.selected_links.erase x
          expanded_folders := s.expanded_folders.erase x } x p (removeChild x parent) t2
        hres2 (modify_at_path_fix hres2 (removeChild_idem x parent))
      rw [h2]
      simp [Finset.erase_idem]
  · intro parent hres hnc
    rw [delete_node_not_child hres hnc]
    exact ⟨rfl, rfl⟩

theorem C5_remove_idempotent_witness :
    (delete_node (delete_node wState "ghost" ["root"]).2 "ghost" ["root"]).2
        = (delete_node wState "ghost" ["root"]).2
    ∧ (delete_node wState "ghost" ["root"]).2.link_tree = wState.link_tree
    ∧ (delete_node wState "ghost" ["root"]).1 = true := by
  have h := C5_remove_idempotent wState "ghost" ["root"]
  exact ⟨h.1, (h.2 wTree rfl (by decide)).1, (h.2 wTree rfl (by decide)).2⟩

/-- The root of the tree keeps its id and its type across any successful
or failed path mutation whose node function preserves them. -/
theorem modify_at_path_preserves_root {t : Node} {p : List String} {f : Node → Node}
    (hid : ∀ m, (f m).id = m.id) (hty : ∀ m, (f m).ntype = m.ntype) :
    ((modify_at_path t p f).getD t).id = t.id
    ∧ ((modify_at_path t p f).getD t).ntype = t.ntype := by
  cases hm : modify_at_path t p f with
  | none => simp
  | some t2 =>
    rcases modify_at_path_shape hm with h2 | ⟨cs, h2⟩ <;> subst h2 <;> simp [hid, hty]

theorem applyOp_preserves_root (s : AppState) (op : TreeOp) :
    (applyOp s op).link_tree.id = s.link_tree.id
    ∧ (applyOp s op).link_tree.ntype = s.link_tree.ntype := by
  cases op with
  | insert p n =>
    show (add_node s.link_tree p n).2.id = _ ∧ (add_node s.link_tree p n).2.ntype = _
    unfold add_node
    split
    · split
      · exact modify_at_path_preserves_root (fun m => by simp) (fun m => by simp)
      · exact ⟨rfl, rfl⟩
    · exact ⟨rfl, rfl⟩
  | remove x p =>
    show (delete_node s x p).2.link_tree.id = _ ∧ (delete_node s x p).2.link_tree.ntype = _
    unfold delete_node
    split
    · exact modify_at_path_preserves_root (fun m => removeChild_id x m)
        (fun m => by unfold removeChild; simp)
    · exact ⟨rfl, rfl⟩

/-- C9: under any sequence of insert and remove operations, the tree's
root node keeps id `"root"` and stays a folder-type node — it is never
deleted or replaced, since mutations only rewrite children lists. -/
theorem C9_root_preserved (s : AppState) (ops : List TreeOp)
    (hid : s.link_tree.id = "root") (hty : s.link_tree.ntype = NodeType.folder) :
    (applyOps s ops).link_tree.id = "root"
    ∧ (applyOps s ops).link_tree.ntype = NodeType.folder := by
  induction ops generalizing s with
  | nil => exact ⟨hid, hty⟩
  | cons op ops ih =>
    have h := applyOp_preserves_root s op
    exact ih (applyOp s op) (h.1.trans hid) (h.2.trans hty)

theorem C9_root_preserved_witness :
    (applyOps initial_state
        [TreeOp.insert ["root"] wFolder, TreeOp.remove "f" ["root"]]).link_tree.id = "root"
    ∧ (applyOps initial_state
        [TreeOp.insert ["root"] wFolder, TreeOp.remove "f" ["root"]]).link_tree.ntype
      = NodeType.folder :=
  C9_root_preserved initial_state
    [TreeOp.insert ["root"] wFolder, TreeOp.remove "f" ["root"]] rfl rfl

/-- C3 counterexample: with a selection holding only an id matching no
link node, zero links are opened yet the function returns `true`; with an
empty selection zero links are opened and it returns `false` — so the
value returned is a boolean, not the number of links actually opened. -/
theorem C3_counterexample :
    (open_selected_links ghostState).1.length = 0
    ∧ (open_selected_links ghostState).2 = true
    ∧ (open_selected_links initial_state).1.length = 0
    ∧ (open_selected_links initial_state).2 = false := by
  refine ⟨rfl, by decide, rfl, by decide⟩

/-- C3 (amended): `open_selected_links` opens exactly the links of the
tree whose ids are selected — a selected id with no matching link node is
silently skipped and contributes nothing to the opened links — but the
function's return value is a boolean recording whether the selection set
was non-empty, not the number of links opened. -/
theorem C3_open_selected_skips_stale (s : AppState) (x : String)
    (hx : ∀ l ∈ get_all_links s.link_tree, ¬ l.id = x) :
    (open_selected_links
        { s with selected_links := insert x s.selected_links }).1
      = (open_selected_links s).1
    ∧ ((open_selected_links s).2 = true ↔ s.selected_links.Nonempty) := by
  constructor
  · unfold open_selected_links
    simp only
    rw [if_pos (Finset.insert_nonempty x s.selected_links)]
    by_cases h : s.selected_links.Nonempty
    · rw [if_pos h]
      apply List.filter_congr
      intro l hl
      simp [Finset.mem_insert, hx l hl]
    · rw [if_neg h]
      simp only
      rw [List.filter_eq_nil_iff.mpr ?_]
      intro l hl
      have hemp : s.selected_links = ∅ := Finset.not_nonempty_iff_eq_empty.mp h
      simp [hemp, Finset.mem_insert, hx l hl]
  · unfold open_selected_links
    by_cases h : s.selected_links.Nonempty
    · rw [if_pos h]
      simpa using h
    · rw [if_neg h]
      simpa using h

theorem C3_open_selected_skips_stale_witness :
    (open_selected_links
        { wState with selected_links := insert "ghost" wState.selected_links }).1
      = (open_selected_links wState).1
    ∧ ((open_selected_links wState).2 = true ↔ wState.selected_links.Nonempty) :=
  C3_open_selected_skips_stale wState "ghost" (by decide)

/-- C6: inserting a node whose id is fresh for the whole tree under a
valid folder path (a path starting with `"root"` that resolves to a
folder) succeeds; afterwards the parent's children are the old children
with the new node appended last, and resolving the parent path extended
with the new node's id returns exactly the inserted node, all field
values identical (round-trip). -/
theorem C6_insert_roundtrip (t n parent : Node) (rest : List String)
    (hres : get_node_by_path t ("root" :: rest) = some parent)
    (hfold : parent.ntype = NodeType.folder)
    (hfresh : n.id ∉ allIds t) :
    (add_node t ("root" :: rest) n).1 = true
    ∧ get_node_by_path (add_node t ("root" :: rest) n).2
        (("root" :: rest) ++ [n.id]) = some n
    ∧ ∃ parent2,
        get_node_by_path (add_node t ("root" :: rest) n).2 ("root" :: rest)
          = some parent2
        ∧ parent2.children = parent.children ++ [n] := by
  have hf : ∀ m : Node, (m.setChildren (m.children ++ [n])).id = m.id := by
    intro m; simp
  obtain ⟨t2, pre, post, hm, hres2, hids, hids2⟩ :=
    get_modify_spec hf hres
  have hadd : add_node t ("root" :: rest) n = (true, t2) := by
    unfold add_node
    rw [hres]
    dsimp only
    rw [if_pos hfold, hm]
    rfl
  have hnc : ∀ c ∈ parent.children, ¬ c.id = n.id := by
    intro c hc hcn
    apply hfresh
    rw [hids]
    have h1 : n.id ∈ allIdsList parent.children := hcn ▸ childId_mem_allIdsList hc
    have h2 : n.id ∈ allIds parent := by
      rw [allIds_def]
      exact List.mem_cons_of_mem _ h1
    simp [h2]
  refine ⟨by rw [hadd], ?_, ?_⟩
  · rw [hadd]
    show get_node_by_path t2 ("root" :: (rest ++ [n.id])) = some n
    rw [get_node_by_path_root_cons, resolveFrom_append]
    have hr2 : resolveFrom t2 rest = some (parent.setChildren (parent.children ++ [n])) := by
      rw [← get_node_by_path_root_cons]
      exact hres2
    rw [hr2]
    show resolveFrom (parent.setChildren (parent.children ++ [n])) [n.id] = some n
    rw [resolveFrom_cons, children_setChildren, findChild_append hnc, findChild_cons]
    simp
  · refine ⟨parent.setChildren (parent.children ++ [n]), ?_, by simp⟩
    rw [hadd]
    exact hres2

theorem C6_insert_roundtrip_witness :
    (add_node wTree ["root", "f"] wNew).1 = true
    ∧ get_node_by_path (add_node wTree ["root", "f"] wNew).2 ["root", "f", "m"]
        = some wNew
    ∧ ∃ parent2,
        get_node_by_path (add_node wTree ["root", "f"] wNew).2 ["root", "f"]
          = some parent2
        ∧ parent2.children = wFolder.children ++ [wNew] :=
  C6_insert_roundtrip wTree wNew wFolder ["f"] rfl rfl (by decide)

theorem C1_delete_prunes_only_own_id_witness :
    (delete_node wState "f" ["root"]).2.expanded_folders
        = wState.expanded_folders.erase "f"
    ∧ (delete_node wState "f" ["root"]).2.selected_links
        = wState.selected_links.erase "f" :=
  C1_delete_prunes_only_own_id wState "f" ["root"] (by decide)

/-! ## Every link's id and every resolvable node's id lies in the tree's id list -/

mutual
theorem links_id_mem : ∀ (nd l : Node), l ∈ get_all_links nd → l.id ∈ allIds nd
  | .mk i n t cs u d, l => fun h => by
    cases t with
    | link =>
      have hl : l = Node.mk i n NodeType.link cs u d := by
        simpa [get_all_links] using h
      rw [hl]
      simp
    | folder =>
      have h2 : l ∈ allLinksList cs := by
        simpa [get_all_links] using h
      have h3 := linksList_id_mem cs l h2
      simp [h3]

theorem linksList_id_mem :
    ∀ (cs : List Node) (l : Node), l ∈ allLinksList cs → l.id ∈ allIdsList cs
  | [], l => by simp
  | c :: cs, l => fun h => by
    rcases List.mem_append.mp (by simpa using h) with h1 | h1
    · have := links_id_mem c l h1
      simp [this]
    · have := linksList_id_mem cs l h1
      simp [this]
end

theorem get_node_by_path_id_mem {t : Node} {q : List String} {m : Node}
    (h : get_node_by_path t q = some m) : m.id ∈ allIds t := by
  unfold get_node_by_path at h
  by_cases hq : q = ["root"]
  · rw [if_pos hq] at h
    have hm : m = t := by simpa using h.symm
    rw [hm]
    exact id_mem_allIds t
  · rw [if_neg hq] at h
    exact resolveFrom_id_mem h

/-! ## Ids surviving a child filter -/

theorem mem_allIdsList_filter {q : Node → Bool} :
    ∀ (cs : List Node) (x : String),
      x ∈ allIdsList (cs.filter q) → x ∈ allIdsList cs := by
  intro cs
  induction cs with
  | nil => intro x h; simp at h
  | cons c0 cs0 ih =>
    intro x h
    by_cases h0 : q c0 = true
    · rw [List.filter_cons_of_pos h0] at h
      rw [allIdsList_cons] at h ⊢
      rcases List.mem_append.mp h with h1 | h1
      · exact List.mem_append.mpr (Or.inl h1)
      · exact List.mem_append.mpr (Or.inr (ih x h1))
    · rw [List.filter_cons_of_neg h0] at h
      rw [allIdsList_cons]
      exact List.mem_append.mpr (Or.inr (ih x h))

/-- In a duplicate-free children list, every id inside the subtree of a
child whose id is `fid` disappears from the id list once the children are
filtered by `id != fid`. -/
theorem not_mem_allIdsList_filter (fid x : String) :
    ∀ (cs : List Node) (c : Node), c ∈ cs → c.id = fid → x ∈ allIds c →
      (allIdsList cs).Nodup →
      x ∉ allIdsList (cs.filter (fun k => k.id != fid)) := by
  intro cs
  induction cs with
  | nil => intro c hc _ _ _; simp at hc
  | cons c0 cs0 ih =>
    intro c hc hcid hx hnd
    rw [allIdsList_cons] at hnd
    obtain ⟨hnd0, hnd1, hdisj⟩ := List.nodup_append.mp hnd
    rcases List.mem_cons.mp hc with heq | hc0
    · subst heq
      rw [List.filter_cons_of_neg (by simp [hcid])]
      intro hmem
      exact hdisj hx (mem_allIdsList_filter cs0 x hmem)
    · by_cases h0 : c0.id = fid
      · rw [List.filter_cons_of_neg (by simp [h0])]
        exact ih c hc0 hcid hx hnd1
      · rw [List.filter_cons_of_pos (by simp [h0])]
        rw [allIdsList_cons]
        intro hmem
        rcases List.mem_append.mp hmem with h1 | h1
        · exact hdisj h1 (allIds_sub_allIdsList hc0 x hx)
        · exact ih c hc0 hcid hx hnd1 h1

/-- C8: in a tree with globally unique node ids, after removing a folder
(a child `c` of the resolved parent, removed by its id) every id of `c`'s
subtree — the folder itself and all descendants at any depth — is gone:
no link returned by `get_all_links` carries such an id, and no path
resolves to a node carrying such an id. Removal cascades over the entire
subtree in one operation. -/
theorem C8_delete_folder_cascades (s : AppState) (p : List String)
    (parent c : Node) (fid x : String)
    (hnodup : (allIds s.link_tree).Nodup)
    (hres : get_node_by_path s.link_tree p = some parent)
    (hc : c ∈ parent.children) (hcid : c.id = fid) (hx : x ∈ allIds c) :
    (∀ l ∈ get_all_links (delete_node s fid p).2.link_tree, ¬ l.id = x)
    ∧ (∀ (q : List String) (m : Node),
        get_node_by_path (delete_node s fid p).2.link_tree q = some m →
          ¬ m.id = x) := by
  obtain ⟨t2, pre, post, hm, hres2, hids, hids2⟩ :=
    get_modify_spec (fun m => removeChild_id fid m) hres
  have htree : (delete_node s fid p).2.link_tree = t2 := by
    rw [delete_node_eq hres hm]
  have hxl : x ∈ allIdsList parent.children := allIds_sub_allIdsList hc x hx
  have hxp : x ∈ allIds parent := by
    rw [allIds_def]
    exact List.mem_cons_of_mem _ hxl
  have hnodup2 : (pre ++ (allIds parent ++ post)).Nodup := by
    rw [← List.append_assoc, ← hids]
    exact hnodup
  obtain ⟨hndpre, hndmidpost, hdisjpre⟩ := List.nodup_append.mp hnodup2
  obtain ⟨hndmid, hndpost, hdisjmid⟩ := List.nodup_append.mp hndmidpost
  have hmid : allIds parent = parent.id :: allIdsList parent.children := allIds_def parent
  have hndchildren : (allIdsList parent.children).Nodup := by
    rw [hmid] at hndmid
    exact (List.nodup_cons.mp hndmid).2
  have hxpid : ¬ x = parent.id := by
    intro hxeq
    have hpidnot : parent.id ∉ allIdsList parent.children := by
      rw [hmid] at hndmid
      exact (List.nodup_cons.mp hndmid).1
    rw [hxeq] at hxl
    exact hpidnot hxl
  have hxfil : x ∉ allIdsList (parent.children.filter (fun k => k.id != fid)) :=
    not_mem_allIdsList_filter fid x parent.children c hc hcid hx hndchildren
  have hremids : allIds (removeChild fid parent)
      = parent.id :: allIdsList (parent.children.filter (fun k => k.id != fid)) := by
    rw [allIds_def]
    simp [removeChild]
  have hxt2 : x ∉ allIds t2 := by
    rw [hids2, hremids]
    intro hmem
    rcases List.mem_append.mp hmem with h1 | h1
    · rcases List.mem_append.mp h1 with h2 | h2
      · exact hdisjpre h2 (List.mem_append.mpr (Or.inl hxp))
      · rcases List.mem_cons.mp h2 with h3 | h3
        · exact hxpid h3
        · exact hxfil h3
    · exact hdisjmid hxp h1
  constructor
  · intro l hl hlid
    apply hxt2
    rw [← hlid]
    rw [htree] at hl
    exact links_id_mem t2 l hl
  · intro q m hq hmid2
    apply hxt2
    rw [← hmid2]
    rw [htree] at hq
    exact get_node_by_path_id_mem hq

theorem C8_delete_folder_cascades_witness :
    (∀ l ∈ get_all_links (delete_node wState "f" ["root"]).2.link_tree, ¬ l.id = "l")
    ∧ (∀ (q : List String) (m : Node),
        get_node_by_path (delete_node wState "f" ["root"]).2.link_tree q = some m →
          ¬ m.id = "l") :=
  C8_delete_folder_cascades wState ["root"] wTree wFolder "f" "l" (by decide) rfl
    (by simp [wTree]) rfl (by decide)
